import Mathlib

/-!
Verification development for the resume-tailoring application's text pipeline
(`app.py`).  The helper functions of the source are shallowly embedded over
`List Char` / `String`:

* `extract_keywords`           (app.py lines 14-16)
* `extract_job_title_and_company` (app.py lines 18-31)
* `extract_name_from_resume`   (app.py lines 33-37)
* `compute_ats_score`          (app.py lines 39-42)
* `clean_job_description`      (app.py lines 44-52)
* `highlight_keywords`         (app.py lines 111-115)

Python string/regex primitives (`str.strip`, `str.split`, `str.splitlines`,
`re.search`, `re.findall`, `re.sub`, word boundaries `\b`) are modelled on the
ASCII fragment relevant to this code; Unicode-only differences (exotic
whitespace, non-ASCII case folding) are outside the scope of every statement
below.  Floating-point arithmetic in the TF-IDF scorer is idealised over `ℝ`;
the two facts proved about it (exact zero on disjoint vocabularies, and
symmetry in its two arguments) are insensitive to that idealisation, because
IEEE multiplication is commutative and the zero case is exact in floats.
-/

namespace App

/-- ASCII/Latin-1 fragment of the whitespace class used by Python's
`str.strip`, `str.split` and the regex class `\s`. -/
def pyIsSpace (c : Char) : Bool :=
  c == ' ' || c == '\t' || c == '\n' || c == '\x0b' || c == '\x0c' || c == '\r' ||
  c == '\x1c' || c == '\x1d' || c == '\x1e' || c == '\x1f' || c == '\x85' || c == '\xa0'

/-- Line-boundary characters of Python's `str.splitlines` (the pair `"\r\n"`
is additionally treated as a single boundary). -/
def isLineBreak (c : Char) : Bool :=
  c == '\n' || c == '\r' || c == '\x0b' || c == '\x0c' ||
  c == '\x1c' || c == '\x1d' || c == '\x1e' || c == '\x85' ||
  c == '\u2028' || c == '\u2029'

/-- Regex word character `\w` (ASCII fragment): letters, digits, underscore.
`Char.isAlpha`/`Char.isDigit` test exactly `[a-zA-Z]` / `[0-9]`. -/
def isWordCh (c : Char) : Bool :=
  c.isAlpha || c.isDigit || c == '_'

/-- `Char → Char` lowercasing as performed by Python's `str.lower` on ASCII. -/
def lowerL (l : List Char) : List Char :=
  l.map Char.toLower

/-- Python `str.strip()`: drop leading and trailing whitespace. -/
def pyStrip (l : List Char) : List Char :=
  ((l.dropWhile pyIsSpace).reverse.dropWhile pyIsSpace).reverse

/-- `isPre n h` holds when `n` is a literal prefix of `h`. -/
def isPre : List Char → List Char → Bool
  | [], _ => true
  | _ :: _, [] => false
  | a :: as, b :: bs => a == b && isPre as bs

/-- Python's substring test `n in h`. -/
def hasSub : List Char → List Char → Bool
  | n, [] => isPre n []
  | n, c :: t => isPre n (c :: t) || hasSub n t

/-- Accumulator worker for `runsBy`: `cur` is the current run, reversed. -/
def runsGo (p : Char → Bool) : List Char → List Char → List (List Char)
  | cur, [] => if cur.isEmpty then [] else [cur.reverse]
  | cur, c :: rest =>
    if p c then runsGo p (c :: cur) rest
    else if cur.isEmpty then runsGo p [] rest
    else cur.reverse :: runsGo p [] rest

/-- The maximal runs of characters satisfying `p`, in order, as produced by
scanning left to right.  Characters not satisfying `p` are separators. -/
def runsBy (p : Char → Bool) (l : List Char) : List (List Char) :=
  runsGo p [] l

/-- Maximal `\w`-runs of a character list.  A regex of the shape
`\b[class]{k,}\b` matches exactly the maximal `\w`-runs whose characters all
lie in `class` (word boundaries can only sit at the edges of a maximal run),
so both `re.findall` calls of the source are expressed through this. -/
def wordRuns (l : List Char) : List (List Char) :=
  runsBy isWordCh l

/-- Python `str.split()` with no separator: maximal non-whitespace runs. -/
def pySplitWs (l : List Char) : List (List Char) :=
  runsBy (fun c => !pyIsSpace c) l

/-- Python treats the two-character sequence `"\r\n"` as a single line
boundary; collapsing each such pair to a single `'\n'` first lets the
remaining boundaries be handled one character at a time. -/
def collapseCRLF : List Char → List Char
  | [] => []
  | '\r' :: '\n' :: rest => '\n' :: collapseCRLF rest
  | c :: rest => c :: collapseCRLF rest

/-- Split at every single-character line boundary (`acc` is the current line,
reversed); a final boundary opens a trailing empty line. -/
def naiveSplit (acc : List Char) : List Char → List (List Char)
  | [] => [acc.reverse]
  | c :: rest =>
    if isLineBreak c then acc.reverse :: naiveSplit [] rest
    else naiveSplit (c :: acc) rest

/-- Does the text end in a line boundary? -/
def endsWithLB (l : List Char) : Bool :=
  match l.getLast? with
  | some c => isLineBreak c
  | none => false

/-- Python `str.splitlines()`: empty text has no lines; otherwise split at
the boundaries (with `"\r\n"` counting as one) and drop the trailing empty
line that a final boundary would open. -/
def splitlinesCh (l : List Char) : List (List Char) :=
  match l with
  | [] => []
  | _ :: _ =>
    if endsWithLB (collapseCRLF l) then (naiveSplit [] (collapseCRLF l)).dropLast
    else naiveSplit [] (collapseCRLF l)

/-- Python `"\n".join(...)` on a list of lines. -/
def joinNL : List (List Char) → List Char
  | [] => []
  | [x] => x
  | x :: xs => x ++ '\n' :: joinNL xs

/-- `List.findIdx?` spelled out locally, to keep its equations elementary. -/
def findIdxOpt (p : α → Bool) : List α → Option ℕ
  | [] => none
  | a :: t => if p a then some 0 else (findIdxOpt p t).map (· + 1)

/-- Case-insensitive literal prefix test: `re.IGNORECASE` matching of the
fixed word `n` against the start of `h` (ASCII case folding). -/
def ciPre : List Char → List Char → Bool
  | [], _ => true
  | _ :: _, [] => false
  | a :: as, b :: bs => a.toLower == b.toLower && ciPre as bs

/-- `re.search` semantics: try the position matcher `f` at every start
position of the text, left to right, also at the empty suffix; the first
position where `f` produces a match wins. -/
def scanFirst (f : List Char → Option (List Char)) : List Char → Option (List Char)
  | [] => f []
  | c :: rest =>
    match f (c :: rest) with
    | some a => some a
    | none => scanFirst f rest

/-- The tail `\s*(.+)` of the title regex, matched against `r` with the
backtracking the regex engine performs: the greedy `\s*` first swallows the
maximal whitespace prefix; if nothing (or only a newline) remains for `.+`,
it gives characters back one at a time, so the first surviving position is
the last non-`'\n'` character of the whitespace prefix.  (`.` matches any
character except `'\n'`; a non-whitespace character is in particular not a
newline, so the first branch needs no extra check.) -/
def wsDot (r : List Char) : Option (List Char) :=
  match r.dropWhile pyIsSpace with
  | c :: rest => some (c :: rest.takeWhile (fun d => !(d == '\n')))
  | [] =>
    match r.reverse.find? (fun d => !(d == '\n')) with
    | some d => some [d]
    | none => none

/-- The tail `[:\-]?\s*(.+)` of the title regex: the optional separator is
greedy, so a present `':'`/`'-'` is consumed first and given back only if the
rest of the pattern cannot match afterwards. -/
def titleTail (r : List Char) : Option (List Char) :=
  match r with
  | c :: rest =>
    if c == ':' || c == '-' then
      match wsDot rest with
      | some a => some a
      | none => wsDot r
    else wsDot r
  | [] => wsDot []

/-- One position of `(?i)(?:title|position|role)[:\-]?\s*(.+)` (the group is
returned).  The three alternatives start with distinct letters, so at most
one of them can match at a given position. -/
def titleAt (l : List Char) : Option (List Char) :=
  if ciPre "title".data l then titleTail (l.drop 5)
  else if ciPre "position".data l then titleTail (l.drop 8)
  else if ciPre "role".data l then titleTail (l.drop 4)
  else none

/-- Character class `[a-zA-Z0-9& ]` of the company regex. -/
def isCompanyCh (c : Char) : Bool :=
  c.isAlpha || c.isDigit || c == '&' || c == ' '

/-- One position of `(?i)at ([A-Z][a-zA-Z0-9& ]+)` (the group is returned).
Because the whole pattern carries `re.IGNORECASE`, the class `[A-Z]` matches
letters of either case, and `at` itself matches in any case.  The `+` is
greedy over `[a-zA-Z0-9& ]` and must consume at least one character. -/
def companyAt (l : List Char) : Option (List Char) :=
  match l with
  | a :: t :: sp :: c :: rest =>
    if a.toLower == 'a' && t.toLower == 't' && sp == ' ' && c.isAlpha then
      match rest.takeWhile isCompanyCh with
      | [] => none
      | r :: rs => some (c :: r :: rs)
    else none
  | _ => none

/-- A line satisfying the override of app.py lines 23-24: it contains both
`"your"` and `"career"` case-insensitively. -/
def careerPred (l : List Char) : Bool :=
  hasSub "your".data (lowerL l) && hasSub "career".data (lowerL l)

/-- The title produced by the `re.search` on app.py line 19 (empty string
when there is no match, app.py line 20). -/
def regexTitle (s : String) : String :=
  match scanFirst titleAt s.data with
  | some g => String.mk (pyStrip g)
  | none => ""

/-- app.py lines 19-26: regex title, then the your/career line override. -/
def titlePart (s : String) : String :=
  if hasSub "your".data (lowerL s.data) && hasSub "career".data (lowerL s.data) then
    match (splitlinesCh s.data).find? careerPred with
    | some l => String.mk (pyStrip l)
    | none => regexTitle s
  else regexTitle s

/-- app.py lines 27-30: regex company, then the hardcoded Moneris fallback. -/
def companyPart (s : String) : String :=
  match scanFirst companyAt s.data with
  | some g => String.mk (pyStrip g)
  | none => if hasSub "moneris".data (lowerL s.data) then "Moneris" else ""

/-- app.py lines 18-31, `extract_job_title_and_company`. -/
def extract_job_title_and_company (job_desc : String) : String × String :=
  (titlePart job_desc, companyPart job_desc)

/-- app.py lines 33-37, `extract_name_from_resume`.  The `[0]` indexing on
line 34 raises `IndexError` when the stripped text has no lines; the embedding
returns `none` there. -/
def extract_name_from_resume (resume_text : String) : Option String :=
  match splitlinesCh (pyStrip resume_text.data) with
  | [] => none
  | first_line :: _ =>
    some (if (pySplitWs first_line).length ≤ 5 then String.mk (pyStrip first_line) else "")

/-- Tokens of `re.findall(r"\b[a-zA-Z]{4,}\b", text.lower())` (app.py line
15), with multiplicity and in order: the maximal `\w`-runs of the lowercased
text that are entirely alphabetic and have length at least 4. -/
def kwTokens (text : String) : List String :=
  ((wordRuns (lowerL text.data)).filter
    (fun r => decide (4 ≤ r.length) && r.all Char.isAlpha)).map String.mk

/-- Python's string order: code-point lexicographic comparison, expressed on
the character lists (identical to `String`'s order, see
`String.le_iff_toList_le`, but kernel-reducible). -/
def strLeData (a b : String) : Prop := a.data ≤ b.data

instance : DecidableRel strLeData :=
  fun a b => inferInstanceAs (Decidable (a.data ≤ b.data))

instance : IsTotal String strLeData :=
  ⟨fun a b => by
    rcases le_total a b with h | h
    · exact Or.inl (String.le_iff_toList_le.mp h)
    · exact Or.inr (String.le_iff_toList_le.mp h)⟩

instance : IsTrans String strLeData :=
  ⟨fun _ _ _ h1 h2 => String.le_iff_toList_le.mp
    (le_trans (String.le_iff_toList_le.mpr h1) (String.le_iff_toList_le.mpr h2))⟩

instance : IsAntisymm String strLeData :=
  ⟨fun _ _ h1 h2 => le_antisymm (String.le_iff_toList_le.mpr h1)
    (String.le_iff_toList_le.mpr h2)⟩

/-- app.py lines 14-16, `extract_keywords`: `sorted(set(words))` — the
distinct tokens in lexicographic order (Python compares strings by code
point). -/
def extract_keywords (text : String) : List String :=
  List.insertionSort strLeData (kwTokens text).dedup

/-- The boilerplate cutoff markers of app.py line 46. -/
def cutoffKeywords : List String :=
  ["why join us", "who we are", "what we offer", "equal opportunity",
   "requirements for success"]

/-- app.py line 49: `any(kw in line.lower() for kw in cutoff_keywords)`. -/
def hasMarker (l : List Char) : Bool :=
  cutoffKeywords.any (fun m => hasSub m.data (lowerL l))

/-- app.py lines 44-52, `clean_job_description`: the for/break loop keeps
exactly the lines before the first marker line. -/
def clean_job_description (text : String) : String :=
  String.mk (pyStrip (joinNL ((splitlinesCh text.data).takeWhile (fun l => !hasMarker l))))

/-- Python `str.strip()` at `String` level. -/
def pyStripS (s : String) : String := String.mk (pyStrip s.data)

/-- Word-character status of an optional character; out-of-range positions
count as non-word for `\b`. -/
def isWordO : Option Char → Bool
  | none => false
  | some c => isWordCh c

/-- One keyword pass of app.py lines 113-114: `re.sub` of
`rf"\b({re.escape(kw)})\b"` with `re.IGNORECASE` and replacement `**\1**`.
`prev` is the original-text character immediately before the current
position: the regex engine evaluates `\b` on its input text, never on the
partially built output.  Matches are non-overlapping; after a match scanning
resumes right after the matched region.  An empty keyword matches the empty
string at every word boundary, after which Python copies one character
before scanning resumes.

Recursion is driven by an explicit fuel so that the definition is structural:
every recursive call consumes at least one text character while the fuel
drops by exactly one, so with any fuel exceeding the text length the
fuel-exhaustion case is unreachable (`subKw` supplies `t.length + 1`). -/
def subKwGo (kw : List Char) : ℕ → Option Char → List Char → List Char
  | 0, _, t => t
  | _ + 1, prev, [] => if kw.isEmpty && isWordO prev then "****".data else []
  | fuel + 1, prev, c :: rest =>
    if kw.isEmpty then
      if Bool.xor (isWordO prev) (isWordCh c) then
        '*' :: '*' :: '*' :: '*' :: c :: subKwGo kw fuel (some c) rest
      else c :: subKwGo kw fuel (some c) rest
    else
      if Bool.xor (isWordO prev) (isWordCh c) && ciPre kw (c :: rest) &&
         Bool.xor (isWordO ((c :: rest).take kw.length).getLast?)
                  (isWordO ((c :: rest).drop kw.length).head?) then
        '*' :: '*' :: (((c :: rest).take kw.length) ++ '*' :: '*' ::
          subKwGo kw fuel ((c :: rest).take kw.length).getLast?
            ((c :: rest).drop kw.length))
      else c :: subKwGo kw fuel (some c) rest

/-- `pattern.sub` for one keyword over a whole text. -/
def subKw (kw t : List Char) : List Char := subKwGo kw (t.length + 1) none t

/-- Descending-length stable ordering of the deduplicated keywords:
`sorted(set(keywords), key=len, reverse=True)` of app.py line 112.  Python's
tie order among equal-length keywords is the arbitrary set iteration order;
the embedding fixes first-occurrence order, which no claim distinguishes. -/
def orderKeywords (ks : List String) : List String :=
  List.insertionSort (fun a b => b.length ≤ a.length) ks.dedup

/-- app.py lines 111-115, `highlight_keywords`. -/
def highlight_keywords (text : String) (keywords : List String) : String :=
  String.mk ((orderKeywords keywords).foldl (fun t kw => subKw kw.data t) text.data)

/-- Tokens of sklearn's default `CountVectorizer` analyzer on one document:
lowercase, then `token_pattern = r"(?u)\b\w\w+\b"`, that is the maximal
`\w`-runs of length at least 2, with multiplicity and in order. -/
def tokenizeDoc (s : String) : List String :=
  ((wordRuns (lowerL s.data)).filter (fun r => decide (2 ≤ r.length))).map String.mk

/-- The fitted vocabulary over the two documents: all distinct tokens of
either document, sorted (sklearn sorts its feature names). -/
def vocabList (d1 d2 : String) : List String :=
  List.insertionSort strLeData (tokenizeDoc d1 ++ tokenizeDoc d2).dedup

/-- Raw term count of token `t` in document `d`. -/
def tf (d t : String) : ℕ := (tokenizeDoc d).count t

/-- Document frequency of `t` over the two fitted documents. -/
def df (d1 d2 t : String) : ℕ :=
  (if t ∈ tokenizeDoc d1 then 1 else 0) + (if t ∈ tokenizeDoc d2 then 1 else 0)

/-- Smoothed idf of `TfidfTransformer`'s defaults with `n = 2` documents:
`ln((1 + n) / (1 + df)) + 1`. -/
noncomputable def idf (d1 d2 t : String) : ℝ :=
  Real.log ((1 + 2) / (1 + (df d1 d2 t : ℝ))) + 1

/-- Entry of the raw tf-idf row of document `d`. -/
noncomputable def tfidfW (d1 d2 d : String) (t : String) : ℝ :=
  (tf d t : ℝ) * idf d1 d2 t

/-- Dot product of two vocabulary-indexed rows. -/
noncomputable def dotV (f g : String → ℝ) (vs : List String) : ℝ :=
  (vs.map (fun t => f t * g t)).sum

/-- The l2 norm of a row over the vocabulary. -/
noncomputable def l2norm (f : String → ℝ) (vs : List String) : ℝ :=
  Real.sqrt (dotV f f vs)

/-- sklearn `normalize(..., norm="l2")`: rows of zero norm are left as-is. -/
noncomputable def normRow (f : String → ℝ) (vs : List String) : String → ℝ :=
  fun t => if l2norm f vs = 0 then f t else f t / l2norm f vs

/-- `cosine_similarity(tfidf[0:1], tfidf[1:2])[0][0]`: dot product of the two
l2-normalised tf-idf rows.  (`cosine_similarity` renormalises its inputs, but
renormalising an already normalised or zero row is the identity over `ℝ`.) -/
noncomputable def cosineSim (d1 d2 : String) : ℝ :=
  dotV (normRow (tfidfW d1 d2 d1) (vocabList d1 d2))
       (normRow (tfidfW d1 d2 d2) (vocabList d1 d2))
       (vocabList d1 d2)

/-- Python `round(x, 2)` idealised over `ℝ`: nearest multiple of `1/100`,
ties to the even multiple (banker's rounding), returned as the integer
numerator over 100. -/
noncomputable def roundHalfEven (x : ℝ) : ℤ :=
  if x - ⌊x⌋ < 1 / 2 then ⌊x⌋
  else if 1 / 2 < x - ⌊x⌋ then ⌊x⌋ + 1
  else if ⌊x⌋ % 2 = 0 then ⌊x⌋ else ⌊x⌋ + 1

/-- `round(·, 2)`. -/
noncomputable def pyRound2 (x : ℝ) : ℝ := (roundHalfEven (x * 100) : ℝ) / 100

/-- app.py lines 39-42, `compute_ats_score`.  `TfidfVectorizer.fit_transform`
raises `ValueError` ("empty vocabulary") when neither document contributes a
token, embedded as `none`; otherwise the score is `round(cosine * 100, 2)`. -/
noncomputable def compute_ats_score (resume job_desc : String) : Option ℝ :=
  if vocabList resume job_desc = [] then none
  else some (pyRound2 (cosineSim resume job_desc * 100))

/-- Modelled from the claim's words (C5), for comparison with the source
behaviour: the distinct maximal alphabetic runs of length at least 4
occurring in the lowercased text, sorted. -/
def keywordsSpecReading (text : String) : List String :=
  List.insertionSort strLeData
    ((((runsBy Char.isAlpha (lowerL text.data)).filter
        (fun r => decide (4 ≤ r.length))).map String.mk).dedup)

/-- All line-boundary characters of `l` are the plain `'\n'`. -/
def onlyNL (l : List Char) : Bool :=
  l.all (fun c => !isLineBreak c || c == '\n')

/-- `l` with a single trailing `'\n'` removed, when present. -/
def trimNL (l : List Char) : List Char :=
  if l.getLast? = some '\n' then l.dropLast else l

/-! ### Helper lemmas -/

theorem scanFirst_eq_some {f : List Char → Option (List Char)} :
    ∀ (l : List Char) (i : ℕ) (a : List Char),
      f (l.drop i) = some a → (∀ j, j < i → f (l.drop j) = none) →
      scanFirst f l = some a := by
  intro l
  induction l with
  | nil =>
    intro i a hf hmin
    cases i with
    | zero => simpa [scanFirst] using hf
    | succ k =>
      have h0 := hmin 0 (Nat.succ_pos k)
      simp only [List.drop_nil] at h0 hf
      rw [h0] at hf
      exact absurd hf (by simp)
  | cons c rest ih =>
    intro i a hf hmin
    cases i with
    | zero =>
      simp only [List.drop_zero] at hf
      simp [scanFirst, hf]
    | succ k =>
      have h0 := hmin 0 (Nat.succ_pos k)
      simp only [List.drop_zero] at h0
      simp only [List.drop_succ_cons] at hf
      simp only [scanFirst, h0]
      exact ih k a hf (fun j hj => hmin (j + 1) (Nat.succ_lt_succ hj))

theorem scanFirst_eq_none {f : List Char → Option (List Char)} :
    ∀ l : List Char, (∀ i, f (l.drop i) = none) → scanFirst f l = none := by
  intro l
  induction l with
  | nil => intro h; simpa [scanFirst] using h 0
  | cons c rest ih =>
    intro h
    have h0 := h 0
    simp only [List.drop_zero] at h0
    simp only [scanFirst, h0]
    exact ih (fun i => by simpa [List.drop_succ_cons] using h (i + 1))

theorem isPre_iff : ∀ n h : List Char, isPre n h = true ↔ n <+: h
  | [], h => by simp [isPre]
  | a :: as, [] => by simp [isPre]
  | a :: as, b :: bs => by
    simp [isPre, List.cons_prefix_cons, isPre_iff as bs, Bool.and_eq_true, beq_iff_eq]

theorem hasSub_iff : ∀ n h : List Char, hasSub n h = true ↔ n <:+: h
  | n, [] => by simp [hasSub, isPre_iff]
  | n, c :: t => by
    simp [hasSub, isPre_iff, hasSub_iff n t, List.infix_cons_iff]

theorem isInfix_map (f : Char → Char) {n h : List Char} (hm : n <:+: h) :
    n.map f <:+: h.map f := by
  obtain ⟨s, t, rfl⟩ := hm
  exact ⟨s.map f, t.map f, by simp⟩

theorem hasSub_of_infix {n l h : List Char} (hs : hasSub n l = true) (hi : l <:+: h) :
    hasSub n h = true :=
  (hasSub_iff n h).mpr (((hasSub_iff n l).mp hs).trans hi)

theorem naiveSplit_ne_nil : ∀ (l acc : List Char), naiveSplit acc l ≠ [] := by
  intro l
  induction l with
  | nil => intro acc; simp [naiveSplit]
  | cons c rest ih =>
    intro acc
    rw [naiveSplit]
    split
    · simp
    · exact ih _


theorem collapse_prefix_lift : ∀ (m p : List Char),
    (∀ c ∈ p, isLineBreak c = false) → p <+: collapseCRLF m → p <+: m := by
  intro m
  induction m using collapseCRLF.induct with
  | case1 =>
    intro p hf hp
    simpa [collapseCRLF] using hp
  | case2 rest ih =>
    intro p hf hp
    rw [collapseCRLF] at hp
    match p, hp with
    | [], _ => exact List.nil_prefix
    | c :: p2, hp =>
      rw [List.cons_prefix_cons] at hp
      exact absurd (hf c (by simp)) (by simp [hp.1, isLineBreak])
  | case3 c rest hne ih =>
    intro p hf hp
    rw [collapseCRLF] at hp
    case _ =>
      match p, hp with
      | [], _ => exact List.nil_prefix
      | d :: p2, hp =>
        rw [List.cons_prefix_cons] at hp
        rw [List.cons_prefix_cons]
        exact ⟨hp.1, ih p2 (fun e he => hf e (by simp [he])) hp.2⟩
    case _ => exact hne

theorem collapse_infix_lift : ∀ (m x : List Char),
    (∀ c ∈ x, isLineBreak c = false) → x <:+: collapseCRLF m → x <:+: m := by
  intro m
  induction m using collapseCRLF.induct with
  | case1 =>
    intro x hf hx
    simpa [collapseCRLF] using hx
  | case2 rest ih =>
    intro x hf hx
    rw [collapseCRLF] at hx
    rw [List.infix_cons_iff] at hx
    rcases hx with hpre | hinf
    · match x, hpre with
      | [], _ => simp
      | d :: x2, hpre =>
        rw [List.cons_prefix_cons] at hpre
        exact absurd (hf d (by simp)) (by simp [hpre.1, isLineBreak])
    · exact (ih x hf hinf).trans (List.infix_cons (List.infix_cons (List.infix_refl _)))
  | case3 c rest hne ih =>
    intro x hf hx
    rw [collapseCRLF] at hx
    case _ =>
      rw [List.infix_cons_iff] at hx
      rw [List.infix_cons_iff]
      rcases hx with hpre | hinf
      · left
        match x, hpre with
        | [], _ => exact List.nil_prefix
        | d :: x2, hpre =>
          rw [List.cons_prefix_cons] at hpre
          rw [List.cons_prefix_cons]
          exact ⟨hpre.1, collapse_prefix_lift rest x2 (fun e he => hf e (by simp [he])) hpre.2⟩
      · right; exact ih x hf hinf
    case _ => exact hne

theorem naiveSplit_mem_infix : ∀ (l acc x : List Char),
    x ∈ naiveSplit acc l → x <:+: (acc.reverse ++ l) := by
  intro l
  induction l with
  | nil =>
    intro acc x hx
    simp only [naiveSplit, List.mem_singleton] at hx
    subst hx
    simp
  | cons c rest ih =>
    intro acc x hx
    rw [naiveSplit] at hx
    split at hx
    · rcases List.mem_cons.mp hx with h | h
      · subst h; exact ⟨[], c :: rest, by simp⟩
      · have h2 := ih [] x h
        simp only [List.reverse_nil, List.nil_append] at h2
        exact h2.trans ⟨acc.reverse ++ [c], [], by simp⟩
    · have h2 := ih (c :: acc) x hx
      simpa [List.append_assoc] using h2

theorem naiveSplit_mem_lbFree : ∀ (l acc x : List Char),
    x ∈ naiveSplit acc l → (∀ c ∈ acc, isLineBreak c = false) →
    ∀ c ∈ x, isLineBreak c = false := by
  intro l
  induction l with
  | nil =>
    intro acc x hx hacc
    simp only [naiveSplit, List.mem_singleton] at hx
    subst hx
    intro c hc
    exact hacc c (by simpa using hc)
  | cons c rest ih =>
    intro acc x hx hacc
    rw [naiveSplit] at hx
    split at hx
    · rcases List.mem_cons.mp hx with h | h
      · subst h
        intro d hd
        exact hacc d (by simpa using hd)
      · exact ih [] x h (by simp)
    · rename_i hlb
      refine ih (c :: acc) x hx ?_
      intro d hd
      rcases List.mem_cons.mp hd with h | h
      · subst h; simpa using hlb
      · exact hacc d h

theorem naiveSplit_length : ∀ (l acc : List Char),
    (naiveSplit acc l).length = l.countP isLineBreak + 1 := by
  intro l
  induction l with
  | nil => intro acc; simp [naiveSplit]
  | cons c rest ih =>
    intro acc
    rw [naiveSplit]
    split
    · rename_i h
      simp [List.countP_cons, h, ih []]
    · rename_i h
      simp only [List.countP_cons, ih (c :: acc)]
      simp only [Bool.not_eq_true] at h
      simp [h]

theorem splitlines_mem_infix : ∀ (l x : List Char), x ∈ splitlinesCh l → x <:+: l := by
  intro l x hx
  match l with
  | [] => simp [splitlinesCh] at hx
  | c :: rest =>
    rw [splitlinesCh] at hx
    have hx' : x ∈ naiveSplit [] (collapseCRLF (c :: rest)) := by
      split at hx
      · exact (List.dropLast_sublist _).subset hx
      · exact hx
    have h1 := naiveSplit_mem_infix _ [] x hx'
    simp only [List.reverse_nil, List.nil_append] at h1
    have h2 := naiveSplit_mem_lbFree _ [] x hx' (by simp)
    exact collapse_infix_lift _ x h2 h1

theorem splitlines_mem_lbFree : ∀ (l x : List Char),
    x ∈ splitlinesCh l → ∀ c ∈ x, isLineBreak c = false := by
  intro l x hx
  match l with
  | [] => simp [splitlinesCh] at hx
  | c :: rest =>
    rw [splitlinesCh] at hx
    have hx' : x ∈ naiveSplit [] (collapseCRLF (c :: rest)) := by
      split at hx
      · exact (List.dropLast_sublist _).subset hx
      · exact hx
    exact naiveSplit_mem_lbFree _ [] x hx' (by simp)

theorem endsWithLB_exists {l : List Char} (h : endsWithLB l = true) :
    ∃ c ∈ l, isLineBreak c = true := by
  unfold endsWithLB at h
  cases hl : l.getLast? with
  | none => rw [hl] at h; simp at h
  | some c =>
    rw [hl] at h
    exact ⟨c, List.mem_of_getLast?_eq_some hl, h⟩

theorem splitlines_eq_nil_iff : ∀ l : List Char, splitlinesCh l = [] ↔ l = [] := by
  intro l
  match l with
  | [] => simp [splitlinesCh]
  | c :: rest =>
    simp only [splitlinesCh]
    constructor
    · intro h
      exfalso
      split at h
      · rename_i hend
        obtain ⟨d, hd, hlb⟩ := endsWithLB_exists hend
        have hcnt : 0 < (collapseCRLF (c :: rest)).countP isLineBreak :=
          List.countP_pos_iff.mpr ⟨d, hd, hlb⟩
        have hlen := naiveSplit_length (collapseCRLF (c :: rest)) []
        have : (naiveSplit [] (collapseCRLF (c :: rest))).dropLast.length = 0 := by
          rw [h]; rfl
        rw [List.length_dropLast, hlen] at this
        omega
      · exact naiveSplit_ne_nil _ [] h
    · intro h; simp at h

theorem joinNL_cons_ne (x : List Char) (ys : List (List Char)) (h : ys ≠ []) :
    joinNL (x :: ys) = x ++ '\n' :: joinNL ys := by
  match ys with
  | [] => exact absurd rfl h
  | y :: ys2 => rfl

theorem collapse_eq_self : ∀ l : List Char, (∀ c ∈ l, ¬ c = '\r') → collapseCRLF l = l := by
  intro l
  induction l using collapseCRLF.induct with
  | case1 => intro h; simp [collapseCRLF]
  | case2 rest ih => intro h; exact absurd rfl (h '\r' (by simp))
  | case3 c rest hne ih =>
    intro h
    rw [collapseCRLF]
    case _ => rw [ih (fun d hd => h d (List.mem_cons_of_mem _ hd))]
    case _ => exact hne

theorem naiveSplit_join : ∀ l : List Char, (∀ c ∈ l, isLineBreak c = true → c = '\n') →
    ∀ acc, joinNL (naiveSplit acc l) = acc.reverse ++ l := by
  intro l
  induction l with
  | nil => intro h acc; simp [naiveSplit, joinNL]
  | cons c rest ih =>
    intro h acc
    rw [naiveSplit]
    split
    · rename_i hlb
      have hc : c = '\n' := h c (by simp) hlb
      rw [joinNL_cons_ne _ _ (naiveSplit_ne_nil rest [])]
      rw [ih (fun d hd hlb2 => h d (by simp [hd]) hlb2) []]
      simp [hc]
    · rw [ih (fun d hd hlb2 => h d (by simp [hd]) hlb2) (c :: acc)]
      simp

theorem naiveSplit_append_nl : ∀ (l acc : List Char),
    naiveSplit acc (l ++ ['\n']) = naiveSplit acc l ++ [[]] := by
  intro l
  induction l with
  | nil =>
    intro acc
    simp [naiveSplit, isLineBreak]
  | cons c rest ih =>
    intro acc
    simp only [List.cons_append]
    rw [naiveSplit, naiveSplit]
    split
    · rw [ih []]; simp
    · rw [ih (c :: acc)]

theorem pyStrip_append_ws (xs : List Char) (c : Char) (hc : pyIsSpace c = true) :
    pyStrip (xs ++ [c]) = pyStrip xs := by
  unfold pyStrip
  cases hd : xs.dropWhile pyIsSpace with
  | nil =>
    rw [List.dropWhile_append, hd]
    simp [List.dropWhile, hc]
  | cons d ds =>
    rw [List.dropWhile_append, hd]
    simp only [List.isEmpty_cons, if_false, Bool.false_eq_true]
    rw [List.reverse_append]
    simp only [List.reverse_singleton, List.singleton_append, List.dropWhile_cons]
    simp [hc]

theorem findIdxOpt_none_takeWhile {α : Type} {p : α → Bool} :
    ∀ l : List α, findIdxOpt p l = none → l.takeWhile (fun x => !p x) = l := by
  intro l
  induction l with
  | nil => intro h; rfl
  | cons a t ih =>
    intro h
    rw [findIdxOpt] at h
    split at h
    · simp at h
    · rename_i hpa
      have hpa' : p a = false := by simpa using hpa
      have ht : findIdxOpt p t = none := by
        rcases hfi : findIdxOpt p t with _ | m
        · rfl
        · rw [hfi] at h; simp at h
      simp [List.takeWhile_cons, hpa', ih ht]

theorem findIdxOpt_some_takeWhile {α : Type} {p : α → Bool} :
    ∀ (l : List α) (m : ℕ), findIdxOpt p l = some m →
      l.takeWhile (fun x => !p x) = l.take m := by
  intro l
  induction l with
  | nil => intro m h; simp [findIdxOpt] at h
  | cons a t ih =>
    intro m h
    rw [findIdxOpt] at h
    split at h
    · rename_i hpa
      simp only [Option.some.injEq] at h
      subst h
      simp [List.takeWhile_cons, hpa]
    · rename_i hpa
      have hpa' : p a = false := by simpa using hpa
      rcases hfi : findIdxOpt p t with _ | k
      · rw [hfi] at h; simp at h
      · rw [hfi] at h
        simp only [Option.map_some', Option.some.injEq] at h
        subst h
        simp [List.takeWhile_cons, hpa', ih k hfi]

theorem join_splitlines_strip : ∀ l : List Char,
    (∀ c ∈ l, isLineBreak c = true → c = '\n') →
    pyStrip (joinNL (splitlinesCh l)) = pyStrip l := by
  intro l h
  match l with
  | [] => rfl
  | c :: rest =>
    have hnr : ∀ d ∈ (c :: rest), ¬ d = '\r' := by
      intro d hd hdr
      subst hdr
      exact absurd (h '\r' hd (by decide)) (by decide)
    rw [splitlinesCh]
    rw [collapse_eq_self _ hnr]
    split
    · rename_i hend
      have hne : (c :: rest) ≠ [] := by simp
      unfold endsWithLB at hend
      rcases hl : (c :: rest).getLast? with _ | d
      · rw [hl] at hend; simp at hend
      · rw [hl] at hend
        have hd : d = '\n' := h d (List.mem_of_getLast?_eq_some hl) hend
        subst hd
        have hsplit : (c :: rest).dropLast ++ ['\n'] = c :: rest := by
          have h2 := List.dropLast_append_getLast hne
          rw [List.getLast?_eq_getLast _ hne] at hl
          simp only [Option.some.injEq] at hl
          rw [hl] at h2
          exact h2
        have hsub : ∀ d ∈ (c :: rest).dropLast, isLineBreak d = true → d = '\n' :=
          fun d hd hlb => h d ((List.dropLast_sublist _).subset hd) hlb
        conv_lhs => rw [← hsplit]
        rw [naiveSplit_append_nl, List.dropLast_concat]
        rw [naiveSplit_join _ hsub []]
        simp only [List.reverse_nil, List.nil_append]
        conv_rhs => rw [← hsplit]
        rw [pyStrip_append_ws _ _ (by decide)]
    · rw [naiveSplit_join _ h []]
      simp

theorem vocab_comm (d1 d2 : String) : vocabList d1 d2 = vocabList d2 d1 := by
  unfold vocabList
  apply List.eq_of_perm_of_sorted ?_ (List.sorted_insertionSort _ _)
    (List.sorted_insertionSort _ _)
  refine (List.perm_insertionSort _ _).trans
    (List.Perm.trans ?_ (List.perm_insertionSort _ _).symm)
  rw [List.perm_ext_iff_of_nodup (List.nodup_dedup _) (List.nodup_dedup _)]
  intro a
  simp [List.mem_dedup, or_comm]

theorem df_comm (d1 d2 t : String) : df d1 d2 t = df d2 d1 t := add_comm _ _

theorem idf_comm (d1 d2 t : String) : idf d1 d2 t = idf d2 d1 t := by
  unfold idf
  rw [df_comm]

theorem tfidfW_comm (d1 d2 d : String) : tfidfW d1 d2 d = tfidfW d2 d1 d := by
  funext t
  unfold tfidfW
  rw [idf_comm]

theorem dotV_comm (f g : String → ℝ) (vs : List String) : dotV f g vs = dotV g f vs := by
  unfold dotV
  exact congrArg _ (List.map_congr_left (fun t _ => mul_comm _ _))

theorem dotV_eq_zero {f g : String → ℝ} {vs : List String}
    (h : ∀ t ∈ vs, f t * g t = 0) : dotV f g vs = 0 := by
  unfold dotV
  apply List.sum_eq_zero
  intro x hx
  obtain ⟨t, ht, rfl⟩ := List.mem_map.mp hx
  exact h t ht

theorem cosineSim_comm (d1 d2 : String) : cosineSim d1 d2 = cosineSim d2 d1 := by
  unfold cosineSim
  rw [vocab_comm, tfidfW_comm d1 d2 d1, tfidfW_comm d1 d2 d2]
  exact dotV_comm _ _ _

theorem normRow_zero (f : String → ℝ) (vs : List String) (t : String) (hf : f t = 0) :
    normRow f vs t = 0 := by
  unfold normRow
  split
  · exact hf
  · rw [hf, zero_div]

theorem pyRound2_zero : pyRound2 (0 * 100) = 0 := by
  unfold pyRound2 roundHalfEven
  norm_num

/-- Claim C8 (confirmed): swapping the two arguments of `compute_ats_score`
yields an identical result: the vocabulary, document frequencies and idf
weights are symmetric in the two fitted documents, and the dot product of the
two normalised rows is commutative. -/
theorem compute_ats_score_comm (x y : String) :
    compute_ats_score x y = compute_ats_score y x := by
  unfold compute_ats_score
  rw [vocab_comm, cosineSim_comm]

/-- Claim C1 (corrected): whenever the two texts share no vocabulary — in
particular whenever either text has no tokens at all — *and* at least one
token exists over the two texts, `compute_ats_score` returns `0.0`.  When
neither text contains a token (e.g. both empty), the vectorizer raises
instead of returning `0.0`; see the counterexample theorem. -/
theorem compute_ats_score_disjoint_zero (x y : String)
    (hdisj : ∀ t, t ∈ tokenizeDoc x → t ∉ tokenizeDoc y)
    (hne : vocabList x y ≠ []) :
    compute_ats_score x y = some 0 := by
  unfold compute_ats_score
  rw [if_neg hne]
  have hz : cosineSim x y = 0 := by
    unfold cosineSim
    apply dotV_eq_zero
    intro t ht
    have h0 : tf x t = 0 ∨ tf y t = 0 := by
      by_cases hx : t ∈ tokenizeDoc x
      · exact Or.inr (List.count_eq_zero.mpr (hdisj t hx))
      · exact Or.inl (List.count_eq_zero.mpr hx)
    rcases h0 with h0 | h0
    · rw [normRow_zero (tfidfW x y x) (vocabList x y) t
        (by unfold tfidfW; rw [show tf x t = 0 from h0]; simp), zero_mul]
    · rw [normRow_zero (tfidfW x y y) (vocabList x y) t
        (by unfold tfidfW; rw [show tf y t = 0 from h0]; simp), mul_zero]
  rw [hz, pyRound2_zero]

/-- Claim C1, counterexample: on two token-free texts (here both empty) the
source raises `ValueError` ("empty vocabulary") instead of returning `0.0`,
so `compute_ats_score("", y) = 0.0` does not hold for every `y`. -/
theorem compute_ats_score_empty_empty :
    compute_ats_score "" "" = none ∧ compute_ats_score "" "" ≠ some 0 := by
  have h : compute_ats_score "" "" = none := by
    unfold compute_ats_score
    rw [if_pos (by decide)]
  exact ⟨h, by rw [h]; simp⟩

/-- Claim C1, witness: the empty resume against a job text with tokens
scores exactly zero. -/
theorem compute_ats_score_empty_zero :
    compute_ats_score "" "resume text" = some 0 := by
  apply compute_ats_score_disjoint_zero
  · intro t ht
    have hemp : tokenizeDoc "" = [] := by decide
    rw [hemp] at ht
    simp at ht
  · decide

/-- Claim C2 (corrected): the company is the stripped capture of the
*leftmost* position where `(?i)at ([A-Z][a-zA-Z0-9& ]+)` matches — because of
the `(?i)` flag both `at` and the leading `[A-Z]` match letters of either
case — and when no position matches, it is `"Moneris"` exactly when the text
contains `"moneris"` case-insensitively, else the empty string; the function
never raises. -/
theorem extract_company_characterisation (s : String) :
    (∀ i a, companyAt (s.data.drop i) = some a →
      (∀ j, j < i → companyAt (s.data.drop j) = none) →
      (extract_job_title_and_company s).2 = String.mk (pyStrip a)) ∧
    ((∀ i, companyAt (s.data.drop i) = none) →
      (extract_job_title_and_company s).2 =
        (if hasSub "moneris".data (lowerL s.data) then "Moneris" else "")) := by
  constructor
  · intro i a hf hmin
    have h := scanFirst_eq_some s.data i a hf hmin
    simp [extract_job_title_and_company, companyPart, h]
  · intro hall
    have h := scanFirst_eq_none s.data hall
    simp [extract_job_title_and_company, companyPart, h]

/-- Claim C2, counterexample: in `"Work at moneris"` no "capitalized word
sequence" follows `"at "`, so the claim predicts the fallback literal
`"Moneris"`; the code's `re.IGNORECASE` flag lets `[A-Z]` match the
lowercase `'m'`, producing `"moneris"` instead. -/
theorem extract_company_lowercase_match :
    (extract_job_title_and_company "Work at moneris").2 = "moneris" ∧
    (extract_job_title_and_company "Work at moneris").2 ≠ "Moneris" := by
  constructor
  · decide
  · decide

/-- Claim C2, witness: the leftmost-match characterisation evaluated on a
concrete posting. -/
theorem extract_company_witness :
    (extract_job_title_and_company "i work at Moneris Inc").2 = "Moneris Inc" := by
  have h := (extract_company_characterisation "i work at Moneris Inc").1 7
    "Moneris Inc".data (by decide) (by decide)
  rw [h]
  decide

/-- Claim C3 (corrected): if some line of the text contains both `"your"`
and `"career"` case-insensitively, the first such line (stripped) is the
title; otherwise the title is the stripped capture of the *leftmost* position
where `(?i)(?:title|position|role)[:\-]?\s*(.+)` matches — the separator
being optional and the whitespace able to span line breaks — and the empty
string when no position matches. -/
theorem extract_title_characterisation (s : String) :
    (∀ L, (splitlinesCh s.data).find? careerPred = some L →
      (extract_job_title_and_company s).1 = String.mk (pyStrip L)) ∧
    ((splitlinesCh s.data).find? careerPred = none →
      ∀ i a, titleAt (s.data.drop i) = some a →
        (∀ j, j < i → titleAt (s.data.drop j) = none) →
        (extract_job_title_and_company s).1 = String.mk (pyStrip a)) ∧
    ((splitlinesCh s.data).find? careerPred = none →
      (∀ i, titleAt (s.data.drop i) = none) →
      (extract_job_title_and_company s).1 = "") := by
  refine ⟨?_, ?_, ?_⟩
  · intro L hL
    have hcp : careerPred L = true := List.find?_some hL
    have hmem : L ∈ splitlinesCh s.data := List.mem_of_find?_eq_some hL
    have hinf : L <:+: s.data := splitlines_mem_infix _ _ hmem
    have hlow : lowerL L <:+: lowerL s.data := isInfix_map Char.toLower hinf
    unfold careerPred at hcp
    rw [Bool.and_eq_true] at hcp
    have hy : hasSub "your".data (lowerL s.data) = true :=
      hasSub_of_infix hcp.1 hlow
    have hc : hasSub "career".data (lowerL s.data) = true :=
      hasSub_of_infix hcp.2 hlow
    simp [extract_job_title_and_company, titlePart, hy, hc, hL]
  · intro hnone i a hf hmin
    have h := scanFirst_eq_some s.data i a hf hmin
    by_cases hcond : (hasSub "your".data (lowerL s.data) &&
        hasSub "career".data (lowerL s.data)) = true
    · simp [extract_job_title_and_company, titlePart, regexTitle, hcond, hnone, h]
    · rw [Bool.not_eq_true] at hcond
      simp [extract_job_title_and_company, titlePart, regexTitle, hcond, h]
  · intro hnone hall
    have h := scanFirst_eq_none s.data hall
    by_cases hcond : (hasSub "your".data (lowerL s.data) &&
        hasSub "career".data (lowerL s.data)) = true
    · simp [extract_job_title_and_company, titlePart, regexTitle, hcond, hnone, h]
    · rw [Bool.not_eq_true] at hcond
      simp [extract_job_title_and_company, titlePart, regexTitle, hcond, h]

/-- Claim C3, counterexample: in `"rolex watch"` the token `"role"` is not
followed by a separator, so the claim predicts no match and an empty title;
the code's separator is the optional `[:\-]?`, so the regex matches inside
`"rolex"` and captures `"x watch"`. -/
theorem extract_title_no_separator :
    (extract_job_title_and_company "rolex watch").1 = "x watch" ∧
    (extract_job_title_and_company "rolex watch").1 ≠ "" := by
  constructor
  · decide
  · decide

/-- Claim C3, witness: the leftmost-match characterisation and the
your/career override evaluated on concrete postings. -/
theorem extract_title_witness :
    (extract_job_title_and_company "Role: Senior Analyst").1 = "Senior Analyst" ∧
    (extract_job_title_and_company "Grow Your Career!\nat Acme").1 = "Grow Your Career!" := by
  constructor
  · have h := (extract_title_characterisation "Role: Senior Analyst").2.1 (by decide) 0
      "Senior Analyst".data (by decide) (by decide)
    rw [h]
    decide
  · have h := (extract_title_characterisation "Grow Your Career!\nat Acme").1
      "Grow Your Career!".data (by decide)
    rw [h]
    decide

/-- Claim C4 (corrected): on every resume whose text has non-whitespace
content, the function returns the stripped first line when that line has at
most five whitespace-separated words, and the empty string ("not found")
otherwise.  The claim's precondition "non-empty" is too weak: a non-empty
all-whitespace input raises instead (see the counterexample and claim C10). -/
theorem extract_name_characterisation (s : String) (h : pyStrip s.data ≠ []) :
    extract_name_from_resume s =
      some (if (pySplitWs ((splitlinesCh (pyStrip s.data)).headD [])).length ≤ 5
            then String.mk (pyStrip ((splitlinesCh (pyStrip s.data)).headD []))
            else "") := by
  rcases hsp : splitlinesCh (pyStrip s.data) with _ | ⟨L, rest⟩
  · exact absurd ((splitlines_eq_nil_iff _).mp hsp) h
  · unfold extract_name_from_resume
    rw [hsp]
    simp

/-- Claim C4, counterexample: `" "` is a non-empty string, yet the code
raises `IndexError` (embedded as `none`) rather than returning the
empty-string sentinel. -/
theorem extract_name_whitespace_raises :
    extract_name_from_resume " " = none ∧ extract_name_from_resume " " ≠ some "" :=
  ⟨by decide, by decide⟩

/-- Claim C4, witness: a two-word first line is returned stripped. -/
theorem extract_name_witness :
    pyStrip "John Smith\nEngineer".data ≠ [] ∧
    extract_name_from_resume "John Smith\nEngineer" = some "John Smith" := by
  refine ⟨by decide, ?_⟩
  rw [extract_name_characterisation _ (by decide)]
  decide

/-- Claim C10 (confirmed): the `[0]` indexing of the source succeeds exactly
on inputs with at least one non-whitespace character: there the function
returns a value; on empty or all-whitespace input the line list is empty and
the code raises `IndexError`, embedded as `none` rather than the
empty-string sentinel. -/
theorem extract_name_totality (s : String) :
    (pyStrip s.data ≠ [] → (extract_name_from_resume s).isSome = true) ∧
    (pyStrip s.data = [] → extract_name_from_resume s = none) := by
  constructor
  · intro h
    rcases hsp : splitlinesCh (pyStrip s.data) with _ | ⟨L, rest⟩
    · exact absurd ((splitlines_eq_nil_iff _).mp hsp) h
    · unfold extract_name_from_resume
      rw [hsp]
      simp
  · intro h
    unfold extract_name_from_resume
    rw [h]
    simp [splitlinesCh]

/-- Claim C10, witness: a contentful input yields a value, an all-whitespace
input yields the error case. -/
theorem extract_name_totality_witness :
    (extract_name_from_resume "Bob").isSome = true ∧
    extract_name_from_resume "\t " = none :=
  ⟨(extract_name_totality "Bob").1 (by decide),
   (extract_name_totality "\t ").2 (by decide)⟩

/-- Claim C5 (corrected): the result is sorted and duplicate-free, and its
members are exactly the maximal word-character runs of the lowercased text
that consist entirely of letters and have length at least 4.  "Alphabetic
runs" alone is too weak: the `\b` boundaries reject an alphabetic run that is
adjacent to a digit or underscore (see the counterexample). -/
theorem extract_keywords_characterisation (s : String) :
    List.Sorted strLeData (extract_keywords s) ∧
    (extract_keywords s).Nodup ∧
    (∀ w : String, w ∈ extract_keywords s ↔
      (w.data ∈ wordRuns (lowerL s.data) ∧ 4 ≤ w.data.length ∧
        w.data.all Char.isAlpha = true)) := by
  refine ⟨List.sorted_insertionSort _ _, ?_, ?_⟩
  · exact (List.perm_insertionSort _ _).nodup_iff.mpr (List.nodup_dedup _)
  · intro w
    unfold extract_keywords kwTokens
    rw [List.Perm.mem_iff (List.perm_insertionSort _ _), List.mem_dedup]
    simp only [List.mem_map, List.mem_filter]
    constructor
    · rintro ⟨r, ⟨hr, hcond⟩, rfl⟩
      rw [Bool.and_eq_true, decide_eq_true_eq] at hcond
      exact ⟨hr, hcond.1, hcond.2⟩
    · rintro ⟨hr, hlen, halpha⟩
      exact ⟨w.data, ⟨hr, by rw [Bool.and_eq_true, decide_eq_true_eq]; exact ⟨hlen, halpha⟩⟩, rfl⟩

/-- Claim C5, counterexample: in `"abcd1"` the maximal alphabetic run
`"abcd"` has length 4, so the claim predicts it as a keyword; the regex's
`\b` boundary fails between `'d'` and `'1'`, so the code returns nothing.
`keywordsSpecReading` is the claim's reading, modelled from its words. -/
theorem extract_keywords_boundary_cex :
    extract_keywords "abcd1" = [] ∧ keywordsSpecReading "abcd1" = ["abcd"] ∧
    extract_keywords "abcd1" ≠ keywordsSpecReading "abcd1" :=
  ⟨by decide, by decide, by decide⟩

/-- Claim C5, witness: the spec's own example, together with a membership
instance through the characterisation. -/
theorem extract_keywords_witness :
    extract_keywords "Cats and dogs run fast" = ["cats", "dogs", "fast"] ∧
    "cats" ∈ extract_keywords "Cats and dogs run fast" := by
  refine ⟨by decide, ?_⟩
  exact ((extract_keywords_characterisation "Cats and dogs run fast").2.2 "cats").mpr
    (by decide)

/-- Claim C6 (corrected): the lines strictly before the first marker line are
kept, rejoined with `'\n'` and stripped; the marker line and everything after
it are discarded.  When no line contains a marker the output equals the
trimmed input *provided* the input's line boundaries are all plain `'\n'` —
`splitlines` followed by `"\n".join` normalises other boundaries such as
`"\r\n"` (see the counterexample). -/
theorem clean_job_description_characterisation (s : String) :
    (∀ m, findIdxOpt hasMarker (splitlinesCh s.data) = some m →
      clean_job_description s =
        String.mk (pyStrip (joinNL ((splitlinesCh s.data).take m)))) ∧
    (findIdxOpt hasMarker (splitlinesCh s.data) = none → onlyNL s.data = true →
      clean_job_description s = pyStripS s) := by
  constructor
  · intro m hm
    unfold clean_job_description
    rw [findIdxOpt_some_takeWhile _ m hm]
  · intro hnone honly
    unfold clean_job_description pyStripS
    rw [findIdxOpt_none_takeWhile _ hnone]
    have hcond : ∀ c ∈ s.data, isLineBreak c = true → c = '\n' := by
      intro c hc hlb
      have h2 := List.all_eq_true.mp honly c hc
      rw [hlb] at h2
      simpa using h2
    exact congrArg String.mk (join_splitlines_strip s.data hcond)

/-- Claim C6, counterexample: with no marker present, the output of
`clean_job_description` on `"a\r\nb"` is `"a\nb"`, not the trimmed input —
`splitlines`/`join` replace the `"\r\n"` boundary by `"\n"`. -/
theorem clean_job_description_crlf :
    clean_job_description "a\r\nb" = "a\nb" ∧ pyStripS "a\r\nb" = "a\r\nb" ∧
    clean_job_description "a\r\nb" ≠ pyStripS "a\r\nb" :=
  ⟨by decide, by decide, by decide⟩

/-- Claim C6, witness: a marker line drops itself and everything after it,
and a marker-free text comes back trimmed. -/
theorem clean_job_description_witness :
    clean_job_description "Skills\nWhy Join Us\nPerks" = "Skills" ∧
    clean_job_description "  hello\nworld  " = "hello\nworld" := by
  constructor
  · have h := (clean_job_description_characterisation "Skills\nWhy Join Us\nPerks").1 1
      (by decide)
    rw [h]
    decide
  · have h := (clean_job_description_characterisation "  hello\nworld  ").2
      (by decide) (by decide)
    rw [h]
    decide

/-- Claim C7 (confirmed): the keywords are processed in descending length
order, and on the claim's example the longer keyword `"management"` is
wrapped as one unit — not as `"**manage**ment"` — while the standalone
`"manage"` is still wrapped. -/
theorem highlight_keywords_longest_first :
    (∀ ks : List String,
      List.Sorted (fun a b => b.length ≤ a.length) (orderKeywords ks)) ∧
    highlight_keywords "management and manage" ["manage", "management"] =
      "**management** and **manage**" := by
  constructor
  · intro ks
    haveI h1 : IsTotal String (fun a b => b.length ≤ a.length) :=
      ⟨fun a b => le_total b.length a.length⟩
    haveI h2 : IsTrans String (fun a b => b.length ≤ a.length) :=
      ⟨fun _ _ _ hab hbc => le_trans hbc hab⟩
    exact List.sorted_insertionSort _ _
  · decide

/-- Claim C9 (confirmed): `highlight_keywords` is not idempotent — the
emphasis markers inserted by a first pass are non-word characters, so the
word boundaries still hold and a second pass wraps the same matches again. -/
theorem highlight_keywords_not_idempotent :
    ∃ (t : String) (ks : List String),
      highlight_keywords (highlight_keywords t ks) ks ≠ highlight_keywords t ks :=
  ⟨"manage", ["manage"], by decide⟩

/-- Claim C7, witness: the descending-length ordering fact instantiated at a
concrete keyword list. -/
theorem highlight_keywords_order_witness :
    List.Sorted (fun a b : String => b.length ≤ a.length)
      (orderKeywords ["ab", "abcd", "a"]) :=
  highlight_keywords_longest_first.1 ["ab", "abcd", "a"]

/-- Claim C8, witness: the symmetry instantiated at concrete texts. -/
theorem compute_ats_score_comm_witness :
    compute_ats_score "python developer" "senior python role" =
      compute_ats_score "senior python role" "python developer" :=
  compute_ats_score_comm "python developer" "senior python role"

end App
